import Mathlib

/-!
Verification of the text-transformation core of the family-gpt repository:
the LaTeX-fraction rewriter `process_math_response` from
`src/services/math_utils.py`, and the question-complexity classifier
described in the specification.  Strings are modelled as lists of Unicode
scalar characters, matching Python `str` (a sequence of code points).
-/

/-- Python substring containment `needle in hay` on code-point sequences. -/
def containsSub (needle : List Char) : List Char → Bool
  | [] => needle.isEmpty
  | c :: cs => needle.isPrefixOf (c :: cs) || containsSub needle cs

/-- Python `str.isspace` character class (the Unicode whitespace set used by
`str.strip()` with no argument). -/
def pyIsSpace (c : Char) : Bool :=
  c = ' ' ∨ c = '\t' ∨ c = '\n' ∨ c = '\r' ∨ c = '\x0b' ∨ c = '\x0c' ∨
  c = '\x1c' ∨ c = '\x1d' ∨ c = '\x1e' ∨ c = '\x1f' ∨ c = '\x85' ∨
  c = '\u00a0' ∨ c = '\u1680' ∨ ('\u2000' ≤ c ∧ c ≤ '\u200a') ∨
  c = '\u2028' ∨ c = '\u2029' ∨ c = '\u202f' ∨ c = '\u205f' ∨ c = '\u3000'

/-- Python `str.strip()`: remove leading and trailing whitespace. -/
def pyStrip (l : List Char) : List Char :=
  ((l.dropWhile pyIsSpace).reverse.dropWhile pyIsSpace).reverse

/-- The literal fraction marker substring checked by
`if '\\frac' not in text` in `process_math_response`. -/
def fracTok : List Char := ['\\', 'f', 'r', 'a', 'c']

/-- The six-character opening text consumed by `_FRAC_PATTERN`. -/
def fracOpen : List Char := fracTok ++ ['\x7b']

/-- Character class of the regex `[^\x7d]` (any character except a closing
brace; a negated class also matches newline). -/
def notBrace (c : Char) : Bool := c ≠ '\x7d'

/-- `_frac_to_korean`: build `denominator분의 numerator` from the two
captured groups, stripping each group first. -/
def fracToKorean (g1 g2 : List Char) : List Char :=
  pyStrip g2 ++ String.toList ("분의 ") ++ pyStrip g1

/-- One match attempt of `_FRAC_PATTERN` at the head of the text.  The
regex is `\\frac\x7b([^\x7d]+)\x7d\x7b([^\x7d]+)\x7d`: after the literal
opening, each group is the (necessarily maximal) nonempty run of
non-brace characters followed by the literal brace.  Returns the two
groups and the text after the match. -/
def tryFracMatch (l : List Char) : Option (List Char × List Char × List Char) :=
  if fracOpen.isPrefixOf l then
    match (l.drop 6).takeWhile notBrace, (l.drop 6).dropWhile notBrace with
    | g1h :: g1t, b1 :: b2 :: r2 =>
      if b1 = '\x7d' ∧ b2 = '\x7b' then
        match r2.takeWhile notBrace, r2.dropWhile notBrace with
        | g2h :: g2t, b3 :: r4 =>
          if b3 = '\x7d' then some (g1h :: g1t, g2h :: g2t, r4) else none
        | _, _ => none
      else none
    | _, _ => none
  else none

/-- Fuel-indexed scan of `_FRAC_PATTERN.sub(_frac_to_korean, ·)`: at each
position, substitute a match and resume after it, otherwise emit one
character and advance.  The fuel only needs to cover the length of the
text, since every step consumes at least one character. -/
def fracSubF : Nat → List Char → List Char
  | _, [] => []
  | 0, l => l
  | fuel + 1, c :: cs =>
    match tryFracMatch (c :: cs) with
    | some (g1, g2, rest) => fracToKorean g1 g2 ++ fracSubF fuel rest
    | none => c :: fracSubF fuel cs

/-- `_FRAC_PATTERN.sub(_frac_to_korean, l)`: left-to-right, non-overlapping
substitution of every fraction match. -/
def fracSub (l : List Char) : List Char :=
  fracSubF l.length l

/-- The non-greedy group scan `(.+?)` followed by the closing delimiter:
content is the shortest nonempty character run after which `cls` occurs.
With `nl = false` (no `re.DOTALL`) the content may not contain a newline.
Returns the group and the text after the closing delimiter. -/
def scanContent (cls : List Char) (nl : Bool) : List Char → Option (List Char × List Char)
  | [] => none
  | c :: cs =>
    if nl = false ∧ c = '\n' then none
    else if cls.isPrefixOf cs then some ([c], cs.drop cls.length)
    else
      match scanContent cls nl cs with
      | some (content, rest) => some (c :: content, rest)
      | none => none

/-- One match attempt of a delimiter pattern `opn (.+?) cls` at the head of
the text. -/
def tryDelim (opn cls : List Char) (nl : Bool) (l : List Char) : Option (List Char × List Char) :=
  if opn.isPrefixOf l then scanContent cls nl (l.drop opn.length) else none

/-- Fuel-indexed scan of `pattern.sub(lambda m: ...)` for one delimiter
pair: a matched span is replaced by its group alone when the group
contains the fraction marker, and re-emitted verbatim otherwise; either
way scanning resumes after the span. -/
def delimSubF (opn cls : List Char) (nl : Bool) : Nat → List Char → List Char
  | _, [] => []
  | 0, l => l
  | fuel + 1, c :: cs =>
    match tryDelim opn cls nl (c :: cs) with
    | some (content, rest) =>
      (if containsSub fracTok content then content else opn ++ content ++ cls) ++
        delimSubF opn cls nl fuel rest
    | none => c :: delimSubF opn cls nl fuel cs

/-- One full delimiter-unwrapping pass over the text. -/
def delimSub (opn cls : List Char) (nl : Bool) (l : List Char) : List Char :=
  delimSubF opn cls nl l.length l

/-- The `_DELIMITERS` table: opening text, closing text, and whether the
pattern was compiled with `re.DOTALL` (the single-dollar pattern was not). -/
def delimiterTable : List ((List Char × List Char) × Bool) :=
  [((['\\', '['], ['\\', ']']), true),
   ((['\\', '('], ['\\', ')']), true),
   ((['$', '$'], ['$', '$']), true),
   ((['$'], ['$']), false)]

/-- `process_math_response`: empty or missing text maps to the empty
string; text without the fraction marker is returned unchanged; otherwise
the four delimiter-unwrapping passes run in table order and the fraction
substitution pass runs on their output. -/
def process_math_response (text : Option String) : String :=
  match text with
  | none => ""
  | some s =>
    if s = "" ∨ containsSub fracTok s.toList = false then s
    else
      String.mk
        (fracSub
          (delimiterTable.foldl (fun acc e => delimSub e.1.1 e.1.2 e.2 acc) s.toList))

/-- The three capability tiers of the complexity classifier. -/
inductive ModelTier where
  | Light
  | Standard
  | Heavy
deriving DecidableEq

/-- Modelled from the spec: the Heavy-tier keyword set of the classifier
(`analyze_question_complexity` in `services/gpt_service.py`, a file absent
from the repository snapshot), listed in specification section 4.1. -/
def heavyKeywords : List String :=
  ["코드", "함수", "알고리즘", "분석", "비교", "작성해", "에세이", "증명", "자세히"]

/-- Modelled from the spec: the Standard-tier keyword set of the classifier. -/
def standardKeywords : List String :=
  ["설명해", "어떻게", "번역", "개념", "왜", "계산", "공식"]

/-- Modelled from the spec: the Light-tier keyword set of the classifier. -/
def lightKeywords : List String :=
  ["뭐야", "안녕", "날씨", "고마워", "몇", "언제"]

/-- ASCII lower-casing of one code point, the case folding relevant to the
keyword alphabet. -/
def pyLower (l : List Char) : List Char := l.map Char.toLower

/-- Modelled from the spec: `classify(text, has_image)` of section 4.1
(`analyze_question_complexity` in `services/gpt_service.py`, absent from
the repository snapshot).  An attached image forces `Heavy`; otherwise the
three keyword sets are scanned in priority order over the lower-cased
text, and a length heuristic on the original text decides the rest. -/
def classify (text : String) (hasImage : Bool) : ModelTier :=
  if hasImage then ModelTier.Heavy
  else if heavyKeywords.any (fun kw => containsSub kw.toList (pyLower text.toList)) then
    ModelTier.Heavy
  else if standardKeywords.any (fun kw => containsSub kw.toList (pyLower text.toList)) then
    ModelTier.Standard
  else if lightKeywords.any (fun kw => containsSub kw.toList (pyLower text.toList)) then
    ModelTier.Light
  else if text.length > 200 then ModelTier.Heavy
  else if text.length > 50 then ModelTier.Standard
  else ModelTier.Light

/-! Helper lemmas about the matchers. -/

theorem tryFracMatch_some_length {l g1 g2 r : List Char}
    (h : tryFracMatch l = some (g1, g2, r)) : r.length < l.length := by
  unfold tryFracMatch at h
  split at h
  · split at h
    next g1h g1t b1 b2 r2 heq1 heq2 =>
      split at h
      · split at h
        next g2h g2t b3 r4 heq3 heq4 =>
          split at h
          · have h1 : ((l.drop 6).dropWhile notBrace).length ≤ (l.drop 6).length :=
              (List.dropWhile_sublist notBrace).length_le
            have h3 : (r2.dropWhile notBrace).length ≤ r2.length :=
              (List.dropWhile_sublist notBrace).length_le
            rw [heq2] at h1
            rw [heq4] at h3
            simp only [Option.some.injEq, Prod.mk.injEq] at h
            obtain ⟨-, -, rfl⟩ := h
            simp only [List.length_cons, List.length_drop] at h1 h3 ⊢
            omega
          · exact absurd h (by simp)
        next => exact absurd h (by simp)
      · exact absurd h (by simp)
    next => exact absurd h (by simp)
  · exact absurd h (by simp)

theorem scanContent_some_length (cls : List Char) (nl : Bool) :
    ∀ l content rest, scanContent cls nl l = some (content, rest) →
      rest.length < l.length := by
  intro l
  induction l with
  | nil => intro content rest h; simp [scanContent] at h
  | cons c cs ih =>
    intro content rest h
    unfold scanContent at h
    split at h
    · exact absurd h (by simp)
    · split at h
      · simp only [Option.some.injEq, Prod.mk.injEq] at h
        obtain ⟨-, rfl⟩ := h
        simp only [List.length_cons, List.length_drop]
        omega
      · split at h
        next content2 rest2 heq =>
          simp only [Option.some.injEq, Prod.mk.injEq] at h
          obtain ⟨-, rfl⟩ := h
          have := ih content2 rest2 heq
          simp only [List.length_cons]
          omega
        next => exact absurd h (by simp)

theorem tryDelim_some_length {opn cls : List Char} {nl : Bool} {l content rest : List Char}
    (h : tryDelim opn cls nl l = some (content, rest)) : rest.length < l.length := by
  unfold tryDelim at h
  split at h
  · have h1 := scanContent_some_length cls nl _ _ _ h
    have h2 : (l.drop opn.length).length ≤ l.length := by
      simp only [List.length_drop]; omega
    omega
  · exact absurd h (by simp)

/-! Fuel-irrelevance: the scans only need fuel covering the text length. -/

theorem fracSubF_nil (f : Nat) : fracSubF f [] = [] := by cases f <;> rfl

theorem fracSubF_succ_some {c : Char} {cs g1 g2 rest : List Char} (f : Nat)
    (h : tryFracMatch (c :: cs) = some (g1, g2, rest)) :
    fracSubF (f + 1) (c :: cs) = fracToKorean g1 g2 ++ fracSubF f rest := by
  conv_lhs => rw [fracSubF]
  rw [h]

theorem fracSubF_succ_none {c : Char} {cs : List Char} (f : Nat)
    (h : tryFracMatch (c :: cs) = none) :
    fracSubF (f + 1) (c :: cs) = c :: fracSubF f cs := by
  conv_lhs => rw [fracSubF]
  rw [h]

theorem fracSubF_fuel : ∀ f g l, l.length ≤ f → l.length ≤ g →
    fracSubF f l = fracSubF g l := by
  intro f
  induction f with
  | zero =>
    intro g l hf _
    have : l = [] := List.eq_nil_of_length_eq_zero (Nat.le_zero.mp hf)
    subst this
    rw [fracSubF_nil, fracSubF_nil]
  | succ k ih =>
    intro g l hf hg
    cases l with
    | nil => rw [fracSubF_nil, fracSubF_nil]
    | cons c cs =>
      cases g with
      | zero => simp at hg
      | succ m =>
        cases htm : tryFracMatch (c :: cs) with
        | some x =>
          obtain ⟨g1, g2, rest⟩ := x
          have hlt := tryFracMatch_some_length htm
          simp only [List.length_cons] at hlt hf hg
          rw [fracSubF_succ_some k htm, fracSubF_succ_some m htm,
            ih m rest (by omega) (by omega)]
        | none =>
          simp only [List.length_cons] at hf hg
          rw [fracSubF_succ_none k htm, fracSubF_succ_none m htm,
            ih m cs (by omega) (by omega)]

theorem fracSub_cons_some {c : Char} {cs g1 g2 rest : List Char}
    (h : tryFracMatch (c :: cs) = some (g1, g2, rest)) :
    fracSub (c :: cs) = fracToKorean g1 g2 ++ fracSub rest := by
  have hlt := tryFracMatch_some_length h
  simp only [List.length_cons] at hlt
  unfold fracSub
  rw [List.length_cons, fracSubF_succ_some cs.length h]
  rw [fracSubF_fuel cs.length rest.length rest (by omega) le_rfl]

theorem delimSubF_nil (opn cls : List Char) (nl : Bool) (f : Nat) :
    delimSubF opn cls nl f [] = [] := by cases f <;> rfl

theorem delimSubF_succ_some {opn cls : List Char} {nl : Bool} {c : Char}
    {cs content rest : List Char} (f : Nat)
    (h : tryDelim opn cls nl (c :: cs) = some (content, rest)) :
    delimSubF opn cls nl (f + 1) (c :: cs)
      = (if containsSub fracTok content then content else opn ++ content ++ cls)
          ++ delimSubF opn cls nl f rest := by
  conv_lhs => rw [delimSubF]
  rw [h]

theorem delimSubF_succ_none {opn cls : List Char} {nl : Bool} {c : Char} {cs : List Char}
    (f : Nat) (h : tryDelim opn cls nl (c :: cs) = none) :
    delimSubF opn cls nl (f + 1) (c :: cs) = c :: delimSubF opn cls nl f cs := by
  conv_lhs => rw [delimSubF]
  rw [h]

theorem delimSubF_fuel (opn cls : List Char) (nl : Bool) : ∀ f g l, l.length ≤ f →
    l.length ≤ g → delimSubF opn cls nl f l = delimSubF opn cls nl g l := by
  intro f
  induction f with
  | zero =>
    intro g l hf _
    have : l = [] := List.eq_nil_of_length_eq_zero (Nat.le_zero.mp hf)
    subst this
    rw [delimSubF_nil, delimSubF_nil]
  | succ k ih =>
    intro g l hf hg
    cases l with
    | nil => rw [delimSubF_nil, delimSubF_nil]
    | cons c cs =>
      cases g with
      | zero => simp at hg
      | succ m =>
        cases htm : tryDelim opn cls nl (c :: cs) with
        | some x =>
          obtain ⟨content, rest⟩ := x
          have hlt := tryDelim_some_length htm
          simp only [List.length_cons] at hlt hf hg
          rw [delimSubF_succ_some k htm, delimSubF_succ_some m htm,
            ih m rest (by omega) (by omega)]
        | none =>
          simp only [List.length_cons] at hf hg
          rw [delimSubF_succ_none k htm, delimSubF_succ_none m htm,
            ih m cs (by omega) (by omega)]

theorem delimSub_cons_some {opn cls : List Char} {nl : Bool} {c : Char}
    {cs content rest : List Char}
    (h : tryDelim opn cls nl (c :: cs) = some (content, rest)) :
    delimSub opn cls nl (c :: cs)
      = (if containsSub fracTok content then content else opn ++ content ++ cls)
          ++ delimSub opn cls nl rest := by
  have hlt := tryDelim_some_length h
  simp only [List.length_cons] at hlt
  unfold delimSub
  rw [List.length_cons, delimSubF_succ_some cs.length h]
  rw [delimSubF_fuel opn cls nl cs.length rest.length rest (by omega) le_rfl]


/-! Shape lemmas: where the matchers succeed, and with which groups. -/

theorem takeWhile_notBrace_mid : ∀ (num xs : List Char), '\x7d' ∉ num →
    (num ++ '\x7d' :: xs).takeWhile notBrace = num := by
  intro num
  induction num with
  | nil => intro xs _; simp [notBrace]
  | cons a l ih =>
    intro xs h
    rw [List.cons_append, List.takeWhile_cons]
    have ha : notBrace a = true := by
      simp only [notBrace, decide_eq_true_eq]
      rintro rfl
      exact h (by simp)
    rw [ha]
    simp [ih xs (fun hm => h (by simp [hm]))]

theorem dropWhile_notBrace_mid : ∀ (num xs : List Char), '\x7d' ∉ num →
    (num ++ '\x7d' :: xs).dropWhile notBrace = '\x7d' :: xs := by
  intro num
  induction num with
  | nil => intro xs _; simp [notBrace]
  | cons a l ih =>
    intro xs h
    rw [List.cons_append, List.dropWhile_cons]
    have ha : notBrace a = true := by
      simp only [notBrace, decide_eq_true_eq]
      rintro rfl
      exact h (by simp)
    rw [ha]
    simp [ih xs (fun hm => h (by simp [hm]))]

theorem tryFracMatch_append (num den rest : List Char)
    (hn : num ≠ []) (hd : den ≠ []) (hnn : '\x7d' ∉ num) (hnd : '\x7d' ∉ den) :
    tryFracMatch (fracOpen ++ (num ++ ('\x7d' :: '\x7b' :: (den ++ ('\x7d' :: rest)))))
      = some (num, den, rest) := by
  obtain ⟨n0, nt, rfl⟩ := List.exists_cons_of_ne_nil hn
  obtain ⟨d0, dt, rfl⟩ := List.exists_cons_of_ne_nil hd
  have hpre : fracOpen.isPrefixOf
      (fracOpen ++ ((n0 :: nt) ++ ('\x7d' :: '\x7b' :: ((d0 :: dt) ++ ('\x7d' :: rest))))) = true := by
    rw [List.isPrefixOf_iff_prefix]
    exact List.prefix_append _ _
  have hdrop : (fracOpen ++ ((n0 :: nt) ++ ('\x7d' :: '\x7b' :: ((d0 :: dt) ++ ('\x7d' :: rest))))).drop 6
      = (n0 :: nt) ++ ('\x7d' :: '\x7b' :: ((d0 :: dt) ++ ('\x7d' :: rest))) :=
    List.drop_left' rfl
  unfold tryFracMatch
  rw [if_pos hpre, hdrop, takeWhile_notBrace_mid (n0 :: nt) _ hnn,
    dropWhile_notBrace_mid (n0 :: nt) _ hnn]
  dsimp only
  rw [if_pos (by exact ⟨rfl, rfl⟩), takeWhile_notBrace_mid (d0 :: dt) _ hnd,
    dropWhile_notBrace_mid (d0 :: dt) _ hnd]
  dsimp only
  rw [if_pos rfl]

theorem scanContent_append (cls : List Char) (nl : Bool) :
    ∀ content rest, content ≠ [] →
      (∀ c ∈ content, ¬ (nl = false ∧ c = '\n')) →
      (∀ i, 0 < i → i < content.length →
        cls.isPrefixOf (content.drop i ++ (cls ++ rest)) = false) →
      scanContent cls nl (content ++ (cls ++ rest)) = some (content, rest) := by
  intro content
  induction content with
  | nil => intro rest h _ _; exact absurd rfl h
  | cons c cs ih =>
    intro rest _ hnl hmin
    show scanContent cls nl (c :: (cs ++ (cls ++ rest))) = some (c :: cs, rest)
    unfold scanContent
    rw [if_neg (hnl c (by simp))]
    cases cs with
    | nil =>
      have hpre : cls.isPrefixOf ([] ++ (cls ++ rest)) = true := by
        rw [List.nil_append, List.isPrefixOf_iff_prefix]
        exact List.prefix_append _ _
      rw [if_pos hpre, List.nil_append, List.drop_left]
    | cons c2 cs2 =>
      have hne2 : cls.isPrefixOf ((c2 :: cs2) ++ (cls ++ rest)) = false := by
        have h1 := hmin 1 (by omega) (by simp)
        simpa using h1
      rw [if_neg (by rw [hne2]; exact Bool.false_ne_true)]
      have hrec := ih rest (by simp) (fun a ha => hnl a (by simp [ha]))
        (fun i h1 h2 => by
          have h3 := hmin (i + 1) (by omega)
            (by simp only [List.length_cons] at h2 ⊢; omega)
          simpa using h3)
      rw [hrec]

theorem delimSub_unwrap (opn cls : List Char) (nl : Bool) (content rest : List Char)
    (hop : opn ≠ []) (hne : content ≠ [])
    (hnl : ∀ c ∈ content, ¬ (nl = false ∧ c = '\n'))
    (hmin : ∀ i, 0 < i → i < content.length →
      cls.isPrefixOf (content.drop i ++ (cls ++ rest)) = false) :
    delimSub opn cls nl (opn ++ (content ++ (cls ++ rest)))
      = (if containsSub fracTok content then content else opn ++ content ++ cls)
          ++ delimSub opn cls nl rest := by
  obtain ⟨o, ot, rfl⟩ := List.exists_cons_of_ne_nil hop
  have hscan := scanContent_append cls nl content rest hne hnl hmin
  have htd : tryDelim (o :: ot) cls nl ((o :: ot) ++ (content ++ (cls ++ rest)))
      = some (content, rest) := by
    unfold tryDelim
    have hpre : (o :: ot).isPrefixOf ((o :: ot) ++ (content ++ (cls ++ rest))) = true := by
      rw [List.isPrefixOf_iff_prefix]
      exact List.prefix_append _ _
    rw [if_pos hpre, List.drop_left]
    exact hscan
  have hshape : (o :: ot) ++ (content ++ (cls ++ rest))
      = o :: (ot ++ (content ++ (cls ++ rest))) := rfl
  rw [hshape] at htd
  rw [hshape, delimSub_cons_some htd]

/-! Claim theorems. -/

/-- Claim C1: the fraction substitution pass replaces an occurrence of the
fraction pattern - numerator and denominator each a nonempty brace-free
run - by the denominator, the word 분의, a space, and the numerator, both
groups trimmed, and continues left-to-right on the remaining text; in
particular the rewrite of the plain fraction example yields the Korean
form. -/
theorem frac_substitution (num den rest : List Char)
    (hn : num ≠ []) (hd : den ≠ []) (hnn : '\x7d' ∉ num) (hnd : '\x7d' ∉ den) :
    fracSub (fracOpen ++ (num ++ ('\x7d' :: '\x7b' :: (den ++ ('\x7d' :: rest)))))
        = pyStrip den ++ String.toList ("분의 ") ++ pyStrip num ++ fracSub rest ∧
      process_math_response (some ("\\frac\x7b6\x7d\x7b13\x7d")) = "13분의 6" := by
  constructor
  · have hm := tryFracMatch_append num den rest hn hd hnn hnd
    have hshape : fracOpen ++ (num ++ ('\x7d' :: '\x7b' :: (den ++ ('\x7d' :: rest))))
        = '\\' :: ('f' :: 'r' :: 'a' :: 'c' :: '\x7b' ::
            (num ++ ('\x7d' :: '\x7b' :: (den ++ ('\x7d' :: rest))))) := rfl
    rw [hshape] at hm
    rw [hshape, fracSub_cons_some hm]
    simp [fracToKorean, List.append_assoc]
  · decide

theorem frac_substitution_app :
    fracSub (fracOpen ++ (['6'] ++ ('\x7d' :: '\x7b' :: (['1', '3'] ++ ('\x7d' :: [])))))
      = pyStrip ['1', '3'] ++ String.toList ("분의 ") ++ pyStrip ['6'] ++ fracSub [] :=
  (frac_substitution ['6'] ['1', '3'] [] (by decide) (by decide) (by decide) (by decide)).1

/-- Claim C2: a delimited span is replaced by its enclosed content exactly
when that content contains the fraction marker, and is left as written
otherwise, for every delimiter pair of the table; in particular the
paren-delimited fraction example is unwrapped with its inner whitespace
preserved, and the fraction-free dollar span is untouched. -/
theorem delimiter_unwrap_conditional :
    (∀ opn cls nl, ((opn, cls), nl) ∈ delimiterTable →
      ∀ content rest, content ≠ [] →
        (∀ c ∈ content, nl = false → c ≠ '\n') →
        (∀ i : Fin content.length, 0 < i.val →
          cls.isPrefixOf (content.drop i.val ++ (cls ++ rest)) = false) →
        delimSub opn cls nl (opn ++ (content ++ (cls ++ rest)))
          = (if containsSub fracTok content then content
             else opn ++ content ++ cls) ++ delimSub opn cls nl rest) ∧
    process_math_response (some ("\\( \\frac\x7b6\x7d\x7b13\x7d \\)")) = " 13분의 6 " ∧
    process_math_response (some ("$x + y$")) = "$x + y$" := by
  refine ⟨?_, by decide, by decide⟩
  intro opn cls nl hmem content rest hne hnl hmin
  have hop : opn ≠ [] := by
    simp only [delimiterTable, List.mem_cons, List.not_mem_nil, or_false,
      Prod.mk.injEq] at hmem
    rcases hmem with ⟨⟨rfl, -⟩, -⟩ | ⟨⟨rfl, -⟩, -⟩ | ⟨⟨rfl, -⟩, -⟩ | ⟨⟨rfl, -⟩, -⟩ <;> simp
  exact delimSub_unwrap opn cls nl content rest hop hne
    (fun c hc => by rintro ⟨hnlf, hcn⟩; exact hnl c hc hnlf hcn)
    (fun i h1 h2 => hmin ⟨i, h2⟩ h1)

theorem delimiter_unwrap_conditional_app :
    delimSub ['\\', '['] ['\\', ']'] true
        (['\\', '['] ++ (String.toList (" \\frac\x7b1\x7d\x7b2\x7d ") ++ (['\\', ']'] ++ [])))
      = (if containsSub fracTok (String.toList (" \\frac\x7b1\x7d\x7b2\x7d "))
         then String.toList (" \\frac\x7b1\x7d\x7b2\x7d ")
         else ['\\', '['] ++ String.toList (" \\frac\x7b1\x7d\x7b2\x7d ") ++ ['\\', ']'])
          ++ delimSub ['\\', '['] ['\\', ']'] true [] :=
  delimiter_unwrap_conditional.1 ['\\', '['] ['\\', ']'] true (by decide)
    (String.toList (" \\frac\x7b1\x7d\x7b2\x7d ")) [] (by decide) (by decide) (by decide)

/-- Claim C3: with an attached image the classifier returns the Heavy tier
for every text, short-circuiting every keyword and length rule. -/
theorem classify_image_always_heavy (text : String) :
    classify text true = ModelTier.Heavy := by
  unfold classify
  rw [if_pos rfl]

/-- Claim C4: any text containing a Heavy-tier keyword in its lower-cased
form is classified Heavy without an image, regardless of which other
keywords it also contains, since the Heavy scan runs first. -/
theorem classify_heavy_keyword_first (text : String)
    (h : heavyKeywords.any (fun kw => containsSub kw.toList (pyLower text.toList)) = true) :
    classify text false = ModelTier.Heavy := by
  unfold classify
  rw [if_neg Bool.false_ne_true, if_pos h]

theorem classify_heavy_keyword_first_app :
    heavyKeywords.any
        (fun kw => containsSub kw.toList (pyLower (String.toList ("함수를 설명해줘")))) = true ∧
      classify ("함수를 설명해줘") false = ModelTier.Heavy :=
  ⟨by decide, classify_heavy_keyword_first ("함수를 설명해줘") (by decide)⟩

/-- Claim C5 counterexample: a single-dollar span whose enclosed fraction
content spans two lines is not unwrapped by the rewrite - the dollars
survive and only the fraction text is substituted - so the claim that all
four delimiter patterns match across newlines fails on the single-dollar
pattern, which was compiled without the dot-matches-newline flag. -/
theorem single_dollar_newline_span_kept :
    process_math_response (some ("$ \\frac\x7b1\x7d\x7b2\x7d\n $")) = "$ 2분의 1\n $" ∧
      process_math_response (some ("$ \\frac\x7b1\x7d\x7b2\x7d\n $")) ≠ " 2분의 1\n " := by
  decide

/-- Claim C5 as amended: the display-bracket, inline-paren and
double-dollar spans may contain newlines and are unwrapped whenever the
content holds the fraction marker, while a single-dollar span whose
content contains a newline is left unmatched. -/
theorem delim_multiline_unwrap :
    (∀ opn cls, ((opn, cls), true) ∈ delimiterTable →
      ∀ content rest, content ≠ [] →
        (∀ i : Fin content.length, 0 < i.val →
          cls.isPrefixOf (content.drop i.val ++ (cls ++ rest)) = false) →
        containsSub fracTok content = true →
        delimSub opn cls true (opn ++ (content ++ (cls ++ rest)))
          = content ++ delimSub opn cls true rest) ∧
    delimSub ['$'] ['$'] false (String.toList ("$ \\frac\x7b1\x7d\x7b2\x7d\n $"))
      = String.toList ("$ \\frac\x7b1\x7d\x7b2\x7d\n $") := by
  refine ⟨?_, by decide⟩
  intro opn cls hmem content rest hne hmin hfrac
  have hop : opn ≠ [] := by
    simp only [delimiterTable, List.mem_cons, List.not_mem_nil, or_false,
      Prod.mk.injEq] at hmem
    rcases hmem with ⟨⟨rfl, -⟩, -⟩ | ⟨⟨rfl, -⟩, -⟩ | ⟨⟨rfl, -⟩, -⟩ | ⟨⟨rfl, -⟩, -⟩ <;> simp
  have h := delimSub_unwrap opn cls true content rest hop hne
    (fun c hc => by rintro ⟨h1, -⟩; exact absurd h1 (by simp))
    (fun i h1 h2 => hmin ⟨i, h2⟩ h1)
  rw [h, if_pos hfrac]

theorem delim_multiline_unwrap_app :
    delimSub ['$', '$'] ['$', '$'] true
        (['$', '$'] ++ (String.toList (" \\frac\x7b1\x7d\x7b2\x7d\n ") ++ (['$', '$'] ++ [])))
      = String.toList (" \\frac\x7b1\x7d\x7b2\x7d\n ")
          ++ delimSub ['$', '$'] ['$', '$'] true [] :=
  delim_multiline_unwrap.1 ['$', '$'] ['$', '$'] (by decide)
    (String.toList (" \\frac\x7b1\x7d\x7b2\x7d\n ")) [] (by decide) (by decide) (by decide)

/-- Claim C6: on text containing the fraction marker the rewrite is
exactly the fraction-substitution pass applied after the four delimiter
passes, which run in the fixed order display-brackets, inline-parens,
double-dollar, single-dollar, each on the output of the previous one; in
particular a double-dollar span with a fraction is unwrapped as one
double-dollar span, leaving no dollars behind. -/
theorem rewrite_pass_order :
    (∀ s : String, containsSub fracTok s.toList = true →
      process_math_response (some s)
        = String.mk
            (fracSub
              (delimSub ['$'] ['$'] false
                (delimSub ['$', '$'] ['$', '$'] true
                  (delimSub ['\\', '('] ['\\', ')'] true
                    (delimSub ['\\', '['] ['\\', ']'] true s.toList)))))) ∧
    process_math_response (some ("$$ \\frac\x7b1\x7d\x7b2\x7d $$")) = " 2분의 1 " := by
  refine ⟨?_, by decide⟩
  intro s h
  have hcond : ¬ (s = "" ∨ containsSub fracTok s.toList = false) := by
    rintro (rfl | hf)
    · exact absurd h (by decide)
    · rw [h] at hf
      simp at hf
  unfold process_math_response
  dsimp only
  rw [if_neg hcond]
  rfl

theorem rewrite_pass_order_app :
    containsSub fracTok (String.toList ("\\frac\x7b1\x7d\x7b2\x7d")) = true ∧
      process_math_response (some ("\\frac\x7b1\x7d\x7b2\x7d"))
        = String.mk
            (fracSub
              (delimSub ['$'] ['$'] false
                (delimSub ['$', '$'] ['$', '$'] true
                  (delimSub ['\\', '('] ['\\', ')'] true
                    (delimSub ['\\', '['] ['\\', ']'] true
                      (String.toList ("\\frac\x7b1\x7d\x7b2\x7d"))))))) :=
  ⟨by decide, rewrite_pass_order.1 ("\\frac\x7b1\x7d\x7b2\x7d") (by decide)⟩

/-- Claim C7: on each example input of the testable-properties list the
rewrite is idempotent, and its output contains no fraction marker. -/
theorem rewrite_idempotent_on_examples :
    (process_math_response (some (process_math_response (some ("\\frac\x7b6\x7d\x7b13\x7d"))))
        = process_math_response (some ("\\frac\x7b6\x7d\x7b13\x7d")) ∧
      containsSub fracTok
        (process_math_response (some ("\\frac\x7b6\x7d\x7b13\x7d"))).toList = false) ∧
    (process_math_response (some (process_math_response (some ("\\( \\frac\x7b6\x7d\x7b13\x7d \\)"))))
        = process_math_response (some ("\\( \\frac\x7b6\x7d\x7b13\x7d \\)")) ∧
      containsSub fracTok
        (process_math_response (some ("\\( \\frac\x7b6\x7d\x7b13\x7d \\)"))).toList = false) ∧
    (process_math_response (some (process_math_response (some ("$x + y$"))))
        = process_math_response (some ("$x + y$")) ∧
      containsSub fracTok (process_math_response (some ("$x + y$"))).toList = false) ∧
    (process_math_response (some (process_math_response (some ("hello world"))))
        = process_math_response (some ("hello world")) ∧
      containsSub fracTok (process_math_response (some ("hello world"))).toList = false) ∧
    (process_math_response (some (process_math_response (some (""))))
        = process_math_response (some ("")) ∧
      containsSub fracTok (process_math_response (some (""))).toList = false) ∧
    (process_math_response (some (process_math_response
            (some ("\\frac\x7b1\x7d\x7b2\x7d + \\frac\x7b1\x7d\x7b3\x7d = \\frac\x7b5\x7d\x7b6\x7d"))))
        = process_math_response
            (some ("\\frac\x7b1\x7d\x7b2\x7d + \\frac\x7b1\x7d\x7b3\x7d = \\frac\x7b5\x7d\x7b6\x7d")) ∧
      containsSub fracTok
        (process_math_response
          (some ("\\frac\x7b1\x7d\x7b2\x7d + \\frac\x7b1\x7d\x7b3\x7d = \\frac\x7b5\x7d\x7b6\x7d"))).toList
        = false) := by
  decide

/-- Claim C8: the rewrite is total on missing and empty input, mapping
both to the empty string. -/
theorem rewrite_total_null_empty :
    process_math_response none = "" ∧ process_math_response (some ("")) = "" := by
  decide

/-- Claim C9: nonempty text without the fraction marker substring is
returned unchanged by the rewrite. -/
theorem rewrite_identity_no_marker (s : String) (h1 : s ≠ "")
    (h2 : containsSub fracTok s.toList = false) :
    process_math_response (some s) = s := by
  unfold process_math_response
  dsimp only
  rw [if_pos (Or.inr h2)]

theorem rewrite_identity_no_marker_app :
    process_math_response (some ("hello world")) = "hello world" :=
  rewrite_identity_no_marker ("hello world") (by decide) (by decide)

/-- Claim C10: the rewrite is not idempotent on a nested fraction: one
application of the rewrite to the nested example leaves a residual
fraction marker, and a second application changes the text again. -/
theorem rewrite_not_idempotent_nested :
    process_math_response (some ("\\frac\x7b\\frac\x7b1\x7d\x7b2\x7d\x7d\x7b3\x7d"))
        = "2분의 \\frac\x7b1\x7d\x7b3\x7d" ∧
      process_math_response
          (some (process_math_response (some ("\\frac\x7b\\frac\x7b1\x7d\x7b2\x7d\x7d\x7b3\x7d"))))
        ≠ process_math_response (some ("\\frac\x7b\\frac\x7b1\x7d\x7b2\x7d\x7d\x7b3\x7d")) := by
  decide
